import Mathlib

/-!
Verification development for the MCTS move-selection engine (`src/mcts.rs`).

The engine is shallowly embedded: `f32` values are idealised as real numbers,
with an explicit `F` type capturing the IEEE special values (`+inf`, `-inf`,
`NaN`) that arise in `select_ucb1` from the division `log(N(s)) / N(s,a)`
when `N(s,a) = 0`.  Randomness (`rand::rng`) is modelled by an oracle
`R : Nat -> Nat` together with a draw counter threaded through the
computation.  The game-state type (`board.rs`, not part of the sources) is
modelled from the spec as an abstract contract `GameOps`.
-/

set_option autoImplicit false

namespace Mcts

/-- Modelled from the spec: the two players; the first player is White,
the second player is Black (`Color` lives in the absent `board.rs`). -/
inductive Color where
  | White
  | Black
  deriving DecidableEq

/-- Modelled from the spec (sections 4.1 and 4.2): the Game State contract of
`board.rs`, which is not part of the sources.  A board produces its legal
actions, successor boards, a draw flag, and the side to move.  Games are
finite (witnessed by a strictly decreasing `measure`), a drawn board offers
no further actions (it is terminal), and the legal actions form a set
(no duplicates). -/
structure GameOps (B A : Type) where
  actions : B → List A
  apply : B → A → B
  is_draw : B → Bool
  turn : B → Color
  measure : B → Nat
  measure_lt : ∀ b a, a ∈ actions b → measure (apply b a) < measure b
  draw_no_actions : ∀ b, is_draw b = true → actions b = []
  actions_nodup : ∀ b, (actions b).Nodup

variable {B A : Type}

/-- Edge of the MCTS graph (`OutEdge` in `mcts.rs`): the action, the selection
count `N(s,a)` and the last known evaluation `Q(s,a)`. -/
structure OutEdge (A : Type) where
  action : A
  visits : Nat
  eval : ℝ

/-- `OutEdge::new`: a fresh edge for an action, with count and eval at 0. -/
def OutEdge.new (a : A) : OutEdge A :=
  { action := a, visits := 0, eval := 0 }

/-- Node of the MCTS graph (`Node` in `mcts.rs`). -/
structure Node (B A : Type) where
  board : B
  count : Nat
  out_edges : List (OutEdge A)
  initial_eval : ℝ
  eval : ℝ

/-- `Node::init`: creates the node with a single evaluation from a rollout;
one outgoing edge per valid action of the board. -/
def Node.init (G : GameOps B A) (board : B) (initial_eval : ℝ) : Node B A :=
  { board := board
    count := 1
    out_edges := (G.actions board).map OutEdge.new
    initial_eval := initial_eval
    eval := initial_eval }

/-- The search graph: the `nodes : HashMap<Board, Node>` field of
`MctsEngine`, modelled as a partial map. -/
def Graph (B A : Type) : Type := B → Option (Node B A)

/-- The empty graph (fresh engine, or the state after `clear()`). -/
def emptyGraph : Graph B A := fun _ => none

/-- `HashMap::insert` on the graph. -/
def Graph.insertN [DecidableEq B] (g : Graph B A) (b : B) (n : Node B A) :
    Graph B A :=
  fun b' => if b' = b then some n else g b'

/-- `white_score`: evaluates a final board on the fixed absolute scale
(0.5 draw, 0 when White is to move, 1 when Black is to move).  The
`debug_assert` that the board is final is not part of the value. -/
noncomputable def white_score (G : GameOps B A) (b : B) : ℝ :=
  if G.is_draw b then 1 / 2
  else if G.turn b = Color.White then 0
  else 1

/-- `slice::choose(rng)`: a uniformly random element of a list, `none` when
the list is empty; the oracle `R` supplies the raw draws. -/
def choose {α : Type} (R : Nat → Nat) (k : Nat) (l : List α) : Option α :=
  l.get? (R k % l.length)

/-- The `while` loop of `rollout`: repeatedly choose a random legal action
and apply it until no action is available; returns the final board and the
advanced draw counter. -/
def rolloutGo (G : GameOps B A) (R : Nat → Nat) (b : B) (k : Nat) : B × Nat :=
  match h : choose R k (G.actions b) with
  | none => (b, k)
  | some a => rolloutGo G R (G.apply b a) (k + 1)
termination_by G.measure b
decreasing_by exact G.measure_lt b _ (List.get?_mem h)

/-- `rollout`: performs a single rollout and returns the evaluation of the
final state (plus the advanced draw counter). -/
noncomputable def rollout (G : GameOps B A) (R : Nat → Nat) (b : B) (k : Nat) :
    ℝ × Nat :=
  (white_score G (rolloutGo G R b k).1, (rolloutGo G R b k).2)

/-- Idealised `f32`: a real number or one of the IEEE special values. -/
inductive F where
  | fin : ℝ → F
  | pinf : F
  | ninf : F
  | nan : F

/-- IEEE division of a finite `f32` numerator by a nonnegative-integer-valued
denominator (the cast `N(s,a) as f32`): division by zero yields a signed
infinity, or NaN when the numerator is also zero. -/
noncomputable def fdivFin (a : ℝ) (v : Nat) : F :=
  if (v : ℝ) = 0 then
    if 0 < a then F.pinf else if a < 0 then F.ninf else F.nan
  else F.fin (a / v)

/-- IEEE `sqrt` on the idealised `f32`. -/
noncomputable def fsqrt : F → F
  | F.fin a => if a < 0 then F.nan else F.fin (Real.sqrt a)
  | F.pinf => F.pinf
  | F.ninf => F.nan
  | F.nan => F.nan

/-- IEEE multiplication by a finite scalar (`2. * x` and `c * x` in
`select_ucb1`): a zero scalar times an infinity is NaN. -/
noncomputable def fscale (a : ℝ) : F → F
  | F.fin b => F.fin (a * b)
  | F.pinf => if 0 < a then F.pinf else if a < 0 then F.ninf else F.nan
  | F.ninf => if 0 < a then F.ninf else if a < 0 then F.pinf else F.nan
  | F.nan => F.nan

/-- IEEE addition of a finite scalar (`T * q_sa + x` in `select_ucb1`). -/
def faddFin (a : ℝ) : F → F
  | F.fin b => F.fin (a + b)
  | F.pinf => F.pinf
  | F.ninf => F.ninf
  | F.nan => F.nan

/-- IEEE strict `<` on the idealised `f32`: NaN compares false with
everything. -/
def flt : F → F → Prop
  | F.fin a, F.fin b => a < b
  | F.fin _, F.pinf => True
  | F.ninf, F.fin _ => True
  | F.ninf, F.pinf => True
  | _, _ => False

/-- The UCB1 score computed in the loop body of `select_ucb1`:
`T * q_sa + c * (2. * (f32::log(n, 10.) / n_sa).sqrt())` where `n` is the
node count and `n_sa` the edge visit count. -/
noncomputable def ucb1Score (c T : ℝ) (n : Nat) (e : OutEdge A) : F :=
  faddFin (T * e.eval)
    (fscale c (fscale 2 (fsqrt (fdivFin (Real.log n / Real.log 10) e.visits))))

open scoped Classical

/-- The `for` loop of `select_ucb1`: running maximum `max_ucb1` (started at
`0.`) and currently recorded action (started at `None`); an edge is recorded
exactly when its score is strictly greater than the running maximum. -/
noncomputable def selectLoop (c T : ℝ) (n : Nat) :
    List (OutEdge A) → F → Option A → Option A
  | [], _, acc => acc
  | e :: rest, m, acc =>
    if flt m (ucb1Score c T n e) then
      selectLoop c T n rest (ucb1Score c T n e) (some e.action)
    else selectLoop c T n rest m acc

/-- `MctsEngine::select_ucb1` on the node stored for the board: the sign `T`
is `+1` for Black to move and `-1` for White to move. -/
noncomputable def select_ucb1 (c : ℝ) (turn : Color) (node : Node B A) :
    Option A :=
  let T : ℝ := match turn with
    | Color.Black => 1
    | Color.White => -1
  selectLoop c T node.count node.out_edges (F.fin 0) none

/-- The edge update inside the loop of `update_eval`: the edge whose action
equals the selected one gets its visit count incremented and its eval
replaced by the new value. -/
def bumpEdge [DecidableEq A] (a : A) (v : ℝ) (e : OutEdge A) : OutEdge A :=
  if e.action = a then { e with visits := e.visits + 1, eval := v } else e

/-- `MctsEngine::update_eval` on the node stored for the board: increments
the node count, updates the matching edge, and recomputes
`node.eval = initial_eval / count + Σ (visits / count) * eval` over the
(updated) edges.  In the source the edge update and the accumulation are
interleaved in one loop, with the update preceding the accumulation for the
matched edge, which is equivalent to updating all edges first and then
summing. -/
noncomputable def update_eval [DecidableEq A] (n : Node B A) (a : A) (v : ℝ) :
    Node B A :=
  let count' := n.count + 1
  let edges' := n.out_edges.map (bumpEdge a v)
  { n with
    count := count'
    out_edges := edges'
    eval := n.initial_eval / (count' : ℝ) +
      (edges'.map (fun e => ((e.visits : ℝ) / (count' : ℝ)) * e.eval)).sum }

/-- `MctsEngine::playout`, fuelled: the recursion of the source is along the
game (its depth is bounded by the remaining game length), the explicit fuel
only makes it structural; `none` means the fuel ran out (or the `unwrap`
inside `update_eval` would have panicked, which never happens on graphs
produced by playouts).  The result carries the returned evaluation, the new
graph, the advanced draw counter, and the list of boards for which the
error message of the `None` branch was printed. -/
noncomputable def playoutF (G : GameOps B A) [DecidableEq B] [DecidableEq A]
    (c : ℝ) (R : Nat → Nat) :
    Nat → Graph B A → B → Nat → Option (ℝ × Graph B A × Nat × List B)
  | 0, _, _, _ => none
  | fuel + 1, g, b, k =>
    let ev := (rollout G R b k).1
    let k1 := (rollout G R b k).2
    match g b with
    | none => some (ev, g.insertN b (Node.init G b ev), k1, [])
    | some n =>
      match select_ucb1 c (G.turn b) n with
      | some a =>
        match playoutF G c R fuel g (G.apply b a) k1 with
        | none => none
        | some (v, g', k2, logs) =>
          match g' b with
          | none => none
          | some n' =>
            let n'' := update_eval n' a v
            some (n''.eval, g'.insertN b n'', k2, logs)
      | none => some (ev, g, k1, [b])

/-- Sum of the visit counts of a list of edges. -/
def sumVisits (l : List (OutEdge A)) : Nat :=
  (l.map OutEdge.visits).sum

/-- Invariants of the search graph (spec section 3): a node is keyed by its
own board; it has exactly one out-edge per legal action of its board, fixed
at creation; its visit count is at least 1; the sum of its edges' visit
counts is at most the node count minus 1; and a node for an action-less
board keeps its creating rollout value (which is the terminal score)
forever. -/
def GraphInv (G : GameOps B A) (g : Graph B A) : Prop :=
  ∀ b n, g b = some n →
    n.board = b ∧
    n.out_edges.map OutEdge.action = G.actions b ∧
    1 ≤ n.count ∧
    sumVisits n.out_edges + 1 ≤ n.count ∧
    (G.actions b = [] → n.initial_eval = white_score G b ∧
      n.eval = n.initial_eval)

/-- The loop guard of `MctsEngine::select`: the `while` condition reads the
`time_remaining` binding declared before the loop; the shadowing binding
inside the loop body is dead, so the guard seen by the loop is the value
computed at entry, unchanged by any number of iterations. -/
def selectLoopGuard (entry : Bool) : Bool := entry

/-- The iteration behaviour of `MctsEngine::select`'s loop: given the entry
value of `time_remaining` and an amount of fuel, returns the number of
playouts performed if the loop exits within the fuel, `none` otherwise. -/
def selectIterations (entry : Bool) : Nat → Option Nat
  | 0 => if selectLoopGuard entry then none else some 0
  | fuel + 1 =>
    if selectLoopGuard entry then (selectIterations entry fuel).map (· + 1)
    else some 0

/-- The sign `T` computed at the top of `select_ucb1`: `+1` for the second
player (Black) to move, `-1` for the first player (White). -/
def signT : Color → ℝ
  | Color.Black => 1
  | Color.White => -1

/-- The real-valued UCB1 score actually computed by `select_ucb1` on a
visited edge: `T * Q(s,a) + c * 2 * sqrt(log10 N(s) / N(s,a))`. -/
noncomputable def rscore (c T : ℝ) (n : Nat) (e : OutEdge A) : ℝ :=
  T * e.eval + c * (2 * Real.sqrt ((Real.log n / Real.log 10) / (e.visits : ℝ)))

/-- The real-valued selection loop (the spec-side reference for
`selectLoop` when every score is finite). -/
noncomputable def specPick (score : OutEdge A → ℝ) :
    List (OutEdge A) → ℝ → Option A → Option A
  | [], _, acc => acc
  | e :: rest, m, acc =>
    if m < score e then specPick score rest (score e) (some e.action)
    else specPick score rest m acc

/-- A concrete instance of the Game State contract, used to evaluate the
engine on closed inputs: boards are naturals counting the remaining plies,
board 0 is terminal, every other board has the single legal action 1 which
decrements the board; even boards are White to move. -/
def toyG : GameOps Nat Nat where
  actions b := if b = 0 then [] else [1]
  apply b _ := b - 1
  is_draw _ := false
  turn b := if b % 2 = 0 then Color.White else Color.Black
  measure b := b
  measure_lt := by
    intro b a h
    by_cases hb : b = 0 <;> simp [hb] at h ⊢
    omega
  draw_no_actions := by intro b h; simp at h
  actions_nodup := by intro b; by_cases hb : b = 0 <;> simp [hb]

/-- A node with one legal action whose UCB1 score is negative: board 2
(White to move), node count 3, single edge visited twice with value 1. -/
noncomputable def negNode : Node Nat Nat :=
  { board := 2, count := 3, out_edges := [⟨9, 2, 1⟩],
    initial_eval := 1, eval := 1 }

/-- A fresh node (count 1) with a single unvisited edge: board 1 (Black to
move); the very first re-selection of any newly created node has this
shape. -/
noncomputable def freshNode : Node Nat Nat :=
  { board := 1, count := 1, out_edges := [⟨1, 0, 0⟩],
    initial_eval := 0, eval := 0 }

/-- A node with two visited edges, White to move, evaluated with exploration
weight 0 (a weight the repository's `main` actually sweeps over): every
score is negative. -/
noncomputable def zeroCNode : Node Nat Nat :=
  { board := 2, count := 3, out_edges := [⟨4, 1, 1 / 2⟩, ⟨5, 1, 1 / 4⟩],
    initial_eval := 1 / 2, eval := 1 / 2 }

/-- A node with two visited edges used to instantiate the general
`select_ucb1` characterisation. -/
noncomputable def twoNode : Node Nat Nat :=
  { board := 2, count := 10, out_edges := [⟨1, 4, 3 / 4⟩, ⟨2, 5, 1 / 4⟩],
    initial_eval := 1 / 2, eval := 1 / 2 }

/-- A fixed random oracle for closed evaluations: always draws 0, so the
first legal action is always chosen. -/
def R0 : Nat → Nat := fun _ => 0

/-- The graph holding only a node for the terminal toy board 0, created the
way `playout` creates it (seeded by a rollout of board 0). -/
noncomputable def g9 : Graph Nat Nat :=
  (emptyGraph : Graph Nat Nat).insertN 0 (Node.init toyG 0 (white_score toyG 0))

theorem choose_mem {α : Type} {R : Nat → Nat} {k : Nat} {l : List α} {a : α}
    (h : choose R k l = some a) : a ∈ l :=
  List.get?_mem h

theorem select_ucb1_eq (c : ℝ) (turn : Color) (node : Node B A) :
    select_ucb1 c turn node =
      selectLoop c (signT turn) node.count node.out_edges (F.fin 0) none := by
  cases turn <;> rfl

theorem ucb1Score_fin (c T : ℝ) (n : Nat) (e : OutEdge A)
    (hn : 1 ≤ n) (hv : 1 ≤ e.visits) :
    ucb1Score c T n e = F.fin (rscore c T n e) := by
  have hv0 : ((e.visits : ℝ)) ≠ 0 := by
    have : e.visits ≠ 0 := by omega
    exact Nat.cast_ne_zero.mpr this
  have hlog : 0 ≤ Real.log n / Real.log 10 := by
    apply div_nonneg
    · apply Real.log_nonneg
      exact_mod_cast hn
    · exact (Real.log_pos (by norm_num)).le
  have hq : ¬ (Real.log n / Real.log 10 / (e.visits : ℝ) < 0) := by
    apply not_lt.2
    apply div_nonneg hlog
    positivity
  simp [ucb1Score, fdivFin, fsqrt, fscale, faddFin, rscore, hv0, hq,
    mul_assoc]

theorem specPick_acc_some {score : OutEdge A → ℝ} :
    ∀ (l : List (OutEdge A)) (M : ℝ) (a : A),
      specPick score l M (some a) ≠ none := by
  intro l
  induction l with
  | nil => intro M a h; simp [specPick] at h
  | cons e t ih =>
    intro M a
    by_cases h : M < score e <;> simp [specPick, h] <;> apply ih

theorem specPick_all_le {score : OutEdge A → ℝ} :
    ∀ (l : List (OutEdge A)) (M : ℝ) (acc : Option A),
      (∀ e ∈ l, score e ≤ M) → specPick score l M acc = acc := by
  intro l
  induction l with
  | nil => intro M acc _; rfl
  | cons e t ih =>
    intro M acc h
    have he : score e ≤ M := h e (by simp)
    rw [specPick, if_neg (not_lt.2 he)]
    exact ih M acc (fun x hx => h x (by simp [hx]))

theorem specPick_none_iff {score : OutEdge A → ℝ} :
    ∀ (l : List (OutEdge A)) (M : ℝ),
      (specPick score l M none = none ↔ ∀ e ∈ l, score e ≤ M) := by
  intro l
  induction l with
  | nil => intro M; simp [specPick]
  | cons e t ih =>
    intro M
    by_cases h : M < score e
    · rw [specPick, if_pos h]
      constructor
      · intro hn
        exact absurd hn (specPick_acc_some t (score e) e.action)
      · intro hall
        exact absurd (hall e (by simp)) (not_le.2 h)
    · rw [specPick, if_neg h]
      rw [ih M]
      constructor
      · intro hall
        intro x hx
        rcases List.mem_cons.1 hx with rfl | hxt
        · exact not_lt.1 h
        · exact hall x hxt
      · intro hall x hx
        exact hall x (by simp [hx])

theorem specPick_first_max {score : OutEdge A → ℝ} :
    ∀ (l : List (OutEdge A)) (M : ℝ) (acc : Option A) (i : Nat)
      (hi : i < l.length),
      M < score (l.get ⟨i, hi⟩) →
      (∀ (j : Nat) (hj : j < l.length), j < i →
        score (l.get ⟨j, hj⟩) < score (l.get ⟨i, hi⟩)) →
      (∀ (j : Nat) (hj : j < l.length), i < j →
        score (l.get ⟨j, hj⟩) ≤ score (l.get ⟨i, hi⟩)) →
      specPick score l M acc = some (l.get ⟨i, hi⟩).action := by
  intro l
  induction l with
  | nil => intro M acc i hi; simp at hi
  | cons e t ih =>
    intro M acc i hi hM hbefore hafter
    cases i with
    | zero =>
      rw [specPick, if_pos (show M < score e from hM)]
      apply specPick_all_le
      intro x hx
      rcases List.mem_iff_get.1 hx with ⟨j, rfl⟩
      exact hafter (j + 1) (Nat.succ_lt_succ j.isLt) (Nat.succ_pos j)
    | succ i' =>
      have hi' : i' < t.length := Nat.lt_of_succ_lt_succ hi
      by_cases h : M < score e
      · rw [specPick, if_pos h]
        exact ih (score e) (some e.action) i' hi'
          (hbefore 0 (Nat.succ_pos _) (Nat.succ_pos i'))
          (fun j hj hji =>
            hbefore (j + 1) (Nat.succ_lt_succ hj) (Nat.succ_lt_succ hji))
          (fun j hj hji =>
            hafter (j + 1) (Nat.succ_lt_succ hj) (Nat.succ_lt_succ hji))
      · rw [specPick, if_neg h]
        exact ih M acc i' hi' hM
          (fun j hj hji =>
            hbefore (j + 1) (Nat.succ_lt_succ hj) (Nat.succ_lt_succ hji))
          (fun j hj hji =>
            hafter (j + 1) (Nat.succ_lt_succ hj) (Nat.succ_lt_succ hji))

theorem selectLoop_eq_specPick (c T : ℝ) (n : Nat) (hn : 1 ≤ n) :
    ∀ (l : List (OutEdge A)) (M : ℝ) (acc : Option A),
      (∀ e ∈ l, 1 ≤ e.visits) →
      selectLoop c T n l (F.fin M) acc = specPick (rscore c T n) l M acc := by
  intro l
  induction l with
  | nil => intro M acc _; rfl
  | cons e t ih =>
    intro M acc hv
    have he : ucb1Score c T n e = F.fin (rscore c T n e) :=
      ucb1Score_fin c T n e hn (hv e (by simp))
    rw [selectLoop, specPick, he]
    by_cases h : M < rscore c T n e
    · rw [if_pos (show flt (F.fin M) (F.fin (rscore c T n e)) from h),
        if_pos h]
      exact ih _ _ (fun x hx => hv x (by simp [hx]))
    · rw [if_neg (show ¬ flt (F.fin M) (F.fin (rscore c T n e)) from h),
        if_neg h]
      exact ih _ _ (fun x hx => hv x (by simp [hx]))

/-- C2 (amended): for a node whose edges are all visited, `select_ucb1`
scores each edge as `T * Q(s,a) + c * sqrt(2 * log(N(s)) / N(s,a))` with
the fixed logarithm base `sqrt 10` (the source computes
`T * Q + c * 2 * sqrt(log10(N(s)) / N(s,a))`, which is that same formula),
with `T = +1` for Black (second player) and `-1` for White (first player);
it returns the action of the score-maximising edge — first among ties —
whenever that maximal score is strictly positive, and it returns no action
when every edge's score is at most 0 (the running maximum starts at 0 and
is only beaten strictly). -/
theorem c2_select_ucb1_amended (c : ℝ) (turn : Color) (node : Node B A)
    (hn : 1 ≤ node.count) (hv : ∀ e ∈ node.out_edges, 1 ≤ e.visits) :
    (∀ e ∈ node.out_edges,
      rscore c (signT turn) node.count e =
        signT turn * e.eval +
          c * Real.sqrt
            (2 * (Real.log (node.count : ℝ) / Real.log (Real.sqrt 10)) /
              (e.visits : ℝ))) ∧
    (select_ucb1 c turn node = none ↔
      ∀ e ∈ node.out_edges, rscore c (signT turn) node.count e ≤ 0) ∧
    (∀ (i : Nat) (hi : i < node.out_edges.length),
      0 < rscore c (signT turn) node.count (node.out_edges.get ⟨i, hi⟩) →
      (∀ (j : Nat) (hj : j < node.out_edges.length), j < i →
        rscore c (signT turn) node.count (node.out_edges.get ⟨j, hj⟩) <
          rscore c (signT turn) node.count (node.out_edges.get ⟨i, hi⟩)) →
      (∀ (j : Nat) (hj : j < node.out_edges.length), i < j →
        rscore c (signT turn) node.count (node.out_edges.get ⟨j, hj⟩) ≤
          rscore c (signT turn) node.count (node.out_edges.get ⟨i, hi⟩)) →
      select_ucb1 c turn node = some (node.out_edges.get ⟨i, hi⟩).action) := by
  have hln : Real.log 10 ≠ 0 := (Real.log_pos (by norm_num)).ne'
  refine ⟨?_, ?_, ?_⟩
  · intro e he
    have hv0 : ((e.visits : ℝ)) ≠ 0 := by
      have : e.visits ≠ 0 := by have := hv e he; omega
      exact Nat.cast_ne_zero.mpr this
    have h4 : Real.sqrt 4 = 2 := by
      rw [show (4:ℝ) = 2 ^ 2 by norm_num,
        Real.sqrt_sq (by norm_num : (0:ℝ) ≤ 2)]
    rw [rscore, Real.log_sqrt (by norm_num : (0:ℝ) ≤ 10)]
    rw [show 2 * (Real.log (node.count : ℝ) / (Real.log 10 / 2)) /
        (e.visits : ℝ) =
        4 * (Real.log (node.count : ℝ) / Real.log 10 / (e.visits : ℝ)) by
      field_simp
      ring]
    rw [Real.sqrt_mul (by norm_num : (0:ℝ) ≤ 4), h4]
  · rw [select_ucb1_eq,
      selectLoop_eq_specPick c (signT turn) node.count hn node.out_edges 0
        none hv]
    exact specPick_none_iff node.out_edges 0
  · intro i hi h0 hb ha
    rw [select_ucb1_eq,
      selectLoop_eq_specPick c (signT turn) node.count hn node.out_edges 0
        none hv]
    exact specPick_first_max node.out_edges 0 none i hi h0 hb ha

/-- Witness for C2: the characterisation instantiated at a concrete node
(White to move, count 10, two visited edges), with both hypotheses
discharged. -/
theorem c2_select_ucb1_amended_witness :
    (1 ≤ twoNode.count ∧ ∀ e ∈ twoNode.out_edges, 1 ≤ e.visits) ∧
    (select_ucb1 1 Color.White twoNode = none ↔
      ∀ e ∈ twoNode.out_edges,
        rscore 1 (signT Color.White) twoNode.count e ≤ 0) := by
  have h1 : 1 ≤ twoNode.count := by norm_num [twoNode]
  have h2 : ∀ e ∈ twoNode.out_edges, 1 ≤ e.visits := by
    intro e he
    simp only [twoNode, List.mem_cons, List.not_mem_nil, or_false] at he
    rcases he with rfl | rfl <;> norm_num
  exact ⟨⟨h1, h2⟩, (c2_select_ucb1_amended 1 Color.White twoNode h1 h2).2.1⟩

/-- Counterexample to C2 as stated: a node with a single legal action
(White to move, count 3, the edge visited twice with value 1) on which
`select_ucb1` returns no action at all, although the claim requires it to
return the action of the maximising edge of a non-empty edge list —
whatever the logarithm base, since the maximum of a one-element list is
that element. -/
theorem c2_counterexample :
    select_ucb1 1 Color.White negNode = none ∧
    negNode.out_edges.map OutEdge.action = [9] := by
  constructor
  · have h10 : (0:ℝ) < Real.log 10 := Real.log_pos (by norm_num)
    have h3 : (0:ℝ) ≤ Real.log 3 := Real.log_nonneg (by norm_num)
    have hdiv : ¬ (Real.log 3 / Real.log 10 / 2 < 0) :=
      not_lt.2 (div_nonneg (div_nonneg h3 h10.le) (by norm_num))
    have h93 : Real.log 9 = 2 * Real.log 3 := by
      rw [show (9:ℝ) = 3 ^ 2 by norm_num, Real.log_pow]
      push_cast
      ring
    have h9le : Real.log 9 ≤ Real.log 10 :=
      Real.log_le_log (show (0:ℝ) < 9 by norm_num)
        (show (9:ℝ) ≤ 10 by norm_num)
    have hL : Real.log 3 / Real.log 10 / 2 ≤ 1 / 4 := by
      rw [div_le_iff₀ (by norm_num : (0:ℝ) < 2), div_le_iff₀ h10]
      linarith
    have hs : Real.sqrt (Real.log 3 / Real.log 10 / 2) ≤ 1 / 2 := by
      have hm := Real.sqrt_le_sqrt hL
      have h2 : Real.sqrt (1 / 4) = 1 / 2 := by
        rw [show (1/4 : ℝ) = (1/2) ^ 2 by norm_num,
          Real.sqrt_sq (by norm_num)]
      linarith
    norm_num [select_ucb1, selectLoop, ucb1Score, fdivFin, fsqrt, fscale,
      faddFin, flt, negNode, hdiv]
    intro h
    rw [← Real.sqrt_div (div_nonneg h3 h10.le)] at h
    linarith
  · norm_num [negNode]

/-- C3: at the very first re-selection of a newly created node the node
count is 1, so `f32::log` of the count is 0 and the unvisited edge's score
is `0/0 = NaN`, which never beats the running maximum: `select_ucb1`
returns no action instead of the unvisited edge.  The unvisited-first
priority demanded by the claim does not hold, and where a priority does
arise (count at least 2) it is exactly the by-product of float division by
zero the claim excludes. -/
theorem c3_unvisited_edge_not_selected :
    select_ucb1 1 Color.Black freshNode = none ∧
    freshNode.out_edges.map OutEdge.action = [1] ∧
    ∀ e ∈ freshNode.out_edges, e.visits = 0 := by
  refine ⟨?_, by norm_num [freshNode], ?_⟩
  · simp [select_ucb1, selectLoop, ucb1Score, fdivFin, fsqrt, fscale,
      faddFin, flt, freshNode, Real.log_one]
  · intro e he
    simp only [freshNode, List.mem_cons, List.not_mem_nil, or_false] at he
    rw [he]

theorem choose_none {α : Type} {R : Nat → Nat} {k : Nat} {l : List α}
    (h : choose R k l = none) : l = [] := by
  by_contra hne
  have hlen : 0 < l.length := List.length_pos.2 hne
  have hmod : R k % l.length < l.length := Nat.mod_lt _ hlen
  rw [choose, List.get?_eq_none] at h
  omega

theorem rolloutGo_terminal_aux (G : GameOps B A) (R : Nat → Nat) :
    ∀ (m : Nat) (b : B) (k : Nat), G.measure b ≤ m →
      G.actions (rolloutGo G R b k).1 = [] := by
  intro m
  induction m with
  | zero =>
    intro b k hm
    rw [rolloutGo]
    split
    · next h => exact choose_none h
    · next a h =>
      have := G.measure_lt b a (choose_mem h)
      omega
  | succ m ih =>
    intro b k hm
    rw [rolloutGo]
    split
    · next h => exact choose_none h
    · next a h =>
      exact ih (G.apply b a) (k + 1)
        (by have := G.measure_lt b a (choose_mem h); omega)

theorem rolloutGo_terminal (G : GameOps B A) (R : Nat → Nat) (b : B)
    (k : Nat) : G.actions (rolloutGo G R b k).1 = [] :=
  rolloutGo_terminal_aux G R (G.measure b) b k le_rfl

theorem white_score_cases (G : GameOps B A) (b : B) :
    (G.is_draw b = true → white_score G b = 1 / 2) ∧
    (G.is_draw b = false → G.turn b = Color.White → white_score G b = 0) ∧
    (G.is_draw b = false → G.turn b = Color.Black → white_score G b = 1) := by
  refine ⟨?_, ?_, ?_⟩ <;> intro h
  · simp [white_score, h]
  · intro ht; simp [white_score, h, ht]
  · intro ht; simp [white_score, h, ht]

theorem white_score_mem (G : GameOps B A) (b : B) :
    white_score G b ∈ ({0, 1 / 2, 1} : Set ℝ) := by
  rw [white_score]
  split
  · simp
  · split <;> simp

theorem rolloutGo_nil (G : GameOps B A) (R : Nat → Nat) (b : B) (k : Nat)
    (hb : G.actions b = []) : rolloutGo G R b k = (b, k) := by
  rw [rolloutGo]
  split
  · rfl
  · next a h =>
    rw [hb] at h
    exact absurd (choose_mem h) (List.not_mem_nil a)

theorem rollout_nil (G : GameOps B A) (R : Nat → Nat) (b : B) (k : Nat)
    (hb : G.actions b = []) : rollout G R b k = (white_score G b, k) := by
  rw [rollout, rolloutGo_nil G R b k hb]

/-- C7: `rollout` terminates (it is a total function, by well-founded
recursion on the game measure) on a terminal board — one with no legal
actions — and returns that board's `white_score`, a value in {0, 1/2, 1}:
1/2 when the reached terminal board is a draw, 0 when the side to move
there is the first player (White), 1 when it is the second player
(Black). -/
theorem c7_rollout_range (G : GameOps B A) (R : Nat → Nat) (b : B)
    (k : Nat) :
    G.actions (rolloutGo G R b k).1 = [] ∧
    (rollout G R b k).1 = white_score G (rolloutGo G R b k).1 ∧
    (rollout G R b k).1 ∈ ({0, 1 / 2, 1} : Set ℝ) ∧
    (G.is_draw (rolloutGo G R b k).1 = true → (rollout G R b k).1 = 1 / 2) ∧
    (G.is_draw (rolloutGo G R b k).1 = false →
      G.turn (rolloutGo G R b k).1 = Color.White →
      (rollout G R b k).1 = 0) ∧
    (G.is_draw (rolloutGo G R b k).1 = false →
      G.turn (rolloutGo G R b k).1 = Color.Black →
      (rollout G R b k).1 = 1) := by
  refine ⟨rolloutGo_terminal G R b k, rfl, white_score_mem G _,
    (white_score_cases G _).1, (white_score_cases G _).2.1,
    (white_score_cases G _).2.2⟩

/-- Witness for C7: the rollout facts at the toy game, oracle `R0`,
board 2. -/
theorem c7_rollout_range_witness :
    toyG.actions (rolloutGo toyG R0 2 0).1 = [] ∧
    (rollout toyG R0 2 0).1 = white_score toyG (rolloutGo toyG R0 2 0).1 ∧
    (rollout toyG R0 2 0).1 ∈ ({0, 1 / 2, 1} : Set ℝ) ∧
    (toyG.is_draw (rolloutGo toyG R0 2 0).1 = true →
      (rollout toyG R0 2 0).1 = 1 / 2) ∧
    (toyG.is_draw (rolloutGo toyG R0 2 0).1 = false →
      toyG.turn (rolloutGo toyG R0 2 0).1 = Color.White →
      (rollout toyG R0 2 0).1 = 0) ∧
    (toyG.is_draw (rolloutGo toyG R0 2 0).1 = false →
      toyG.turn (rolloutGo toyG R0 2 0).1 = Color.Black →
      (rollout toyG R0 2 0).1 = 1) :=
  c7_rollout_range toyG R0 2 0

/-- C10: a node with legal actions on which `select_ucb1` returns no
action: with exploration weight 0 (a weight the repository's `main`
sweeps over) and White to move, every edge's score is negative, so no edge
ever strictly beats the running maximum that starts at 0. -/
theorem c10_nonpositive_scores_return_none :
    (select_ucb1 0 Color.White zeroCNode = none ∧
      zeroCNode.out_edges ≠ []) ∧
    ∀ e ∈ zeroCNode.out_edges,
      rscore 0 (signT Color.White) zeroCNode.count e ≤ 0 := by
  refine ⟨⟨?_, by simp [zeroCNode]⟩, ?_⟩
  · have h10 : (0:ℝ) < Real.log 10 := Real.log_pos (by norm_num)
    have h3 : (0:ℝ) ≤ Real.log 3 := Real.log_nonneg (by norm_num)
    have hdiv : ¬ (Real.log 3 / Real.log 10 < 0) :=
      not_lt.2 (div_nonneg h3 h10.le)
    norm_num [select_ucb1, selectLoop, ucb1Score, fdivFin, fsqrt, fscale,
      faddFin, flt, zeroCNode, hdiv]
  · intro e he
    simp only [zeroCNode, List.mem_cons, List.not_mem_nil, or_false] at he
    rcases he with rfl | rfl <;> norm_num [rscore, signT]

theorem select_ucb1_nil (c : ℝ) (turn : Color) (node : Node B A)
    (h : node.out_edges = []) : select_ucb1 c turn node = none := by
  rw [select_ucb1_eq, h]
  rfl

theorem playoutF_terminal_new (G : GameOps B A) [DecidableEq B]
    [DecidableEq A] (c : ℝ) (R : Nat → Nat) (fuel : Nat) (g : Graph B A)
    (b : B) (k : Nat) (hb : G.actions b = []) (hg : g b = none) :
    playoutF G c R (fuel + 1) g b k =
      some (white_score G b,
        g.insertN b (Node.init G b (white_score G b)), k, []) := by
  simp only [playoutF, rollout_nil G R b k hb, hg]

theorem playoutF_actionless_existing (G : GameOps B A) [DecidableEq B]
    [DecidableEq A] (c : ℝ) (R : Nat → Nat) (fuel : Nat) (g : Graph B A)
    (b : B) (k : Nat) (n : Node B A) (hb : G.actions b = [])
    (hn : g b = some n) (hedges : n.out_edges = []) :
    playoutF G c R (fuel + 1) g b k = some (white_score G b, g, k, [b]) := by
  simp only [playoutF, rollout_nil G R b k hb, hn,
    select_ucb1_nil c (G.turn b) n hedges]

theorem g9_inv : GraphInv toyG g9 := by
  intro b n h
  rw [g9, Graph.insertN] at h
  by_cases hb : b = 0
  · subst hb
    rw [if_pos rfl] at h
    cases h
    refine ⟨rfl, ?_, ?_, ?_, ?_⟩
    · simp [Node.init, toyG]
    · simp [Node.init]
    · simp [Node.init, toyG, sumVisits]
    · intro _
      exact ⟨rfl, rfl⟩
  · rw [if_neg hb] at h
    simp [emptyGraph] at h

/-- C6 (amended): `playout` on a terminal board (no legal actions, which by
the game contract covers draws) returns the fixed-scale terminal score; but
the graph is left unchanged only when the board already has a node — on the
first visit a `Node` for the terminal board is created and inserted (and on
later visits the anomaly message is printed for it). -/
theorem c6_playout_terminal (G : GameOps B A) [DecidableEq B] [DecidableEq A]
    (c : ℝ) (R : Nat → Nat) (fuel : Nat) (g : Graph B A) (b : B) (k : Nat)
    (hb : G.actions b = []) (hinv : GraphInv G g) :
    (g b = none →
      playoutF G c R (fuel + 1) g b k =
        some (white_score G b,
          g.insertN b (Node.init G b (white_score G b)), k, [])) ∧
    (∀ n, g b = some n →
      playoutF G c R (fuel + 1) g b k =
        some (white_score G b, g, k, [b])) := by
  constructor
  · intro hg
    exact playoutF_terminal_new G c R fuel g b k hb hg
  · intro n hn
    obtain ⟨-, hmap, -, -, -⟩ := hinv b n hn
    have hedges : n.out_edges = [] :=
      List.map_eq_nil_iff.mp (hmap.trans hb)
    exact playoutF_actionless_existing G c R fuel g b k n hb hn hedges

/-- Counterexample to C6 as stated: on the terminal toy board 0 (no legal
actions) and the empty search graph, `playout` does not leave the graph
unchanged — it inserts a `Node` for the terminal board. -/
theorem c6_counterexample :
    toyG.actions 0 = [] ∧
    (emptyGraph : Graph Nat Nat) 0 = none ∧
    playoutF toyG 1 R0 1 emptyGraph 0 0 =
      some (white_score toyG 0, g9, 0, []) ∧
    g9 0 = some (Node.init toyG 0 (white_score toyG 0)) := by
  refine ⟨rfl, rfl, ?_, ?_⟩
  · exact playoutF_terminal_new toyG 1 R0 0 emptyGraph 0 0 rfl rfl
  · rw [g9, Graph.insertN, if_pos rfl]

/-- Witness for C6: the amended statement instantiated on the terminal toy
board 0 and the empty graph. -/
theorem c6_witness :
    (toyG.actions 0 = [] ∧ GraphInv toyG (emptyGraph : Graph Nat Nat)) ∧
    ((emptyGraph : Graph Nat Nat) 0 = none →
      playoutF toyG 1 R0 1 emptyGraph 0 0 =
        some (white_score toyG 0, g9, 0, [])) := by
  have h1 : toyG.actions 0 = [] := rfl
  have h2 : GraphInv toyG (emptyGraph : Graph Nat Nat) := by
    intro b n h
    simp [emptyGraph] at h
  exact ⟨⟨h1, h2⟩, (c6_playout_terminal toyG 1 R0 0 emptyGraph 0 0 h1 h2).1⟩

/-- C9: when UCB1 selection is reached for a board whose node offers no
action to select (the zero-legal-actions case: by the graph invariant such
a node has no out-edges), `playout` does not crash: it returns `some`
result carrying the node's stored rollout value (the freshly computed
rollout of an action-less board is deterministically its `white_score`,
which the invariant equates with the stored `initial_eval`), leaves the
graph — hence the node's statistics — unchanged, and logs the board. -/
theorem c9_playout_anomaly (G : GameOps B A) [DecidableEq B] [DecidableEq A]
    (c : ℝ) (R : Nat → Nat) (fuel : Nat) (g : Graph B A) (b : B) (k : Nat)
    (n : Node B A) (hinv : GraphInv G g) (hb : G.actions b = [])
    (hn : g b = some n) :
    playoutF G c R (fuel + 1) g b k =
      some (n.initial_eval, g, k, [b]) := by
  obtain ⟨-, hmap, -, -, hterm⟩ := hinv b n hn
  have hedges : n.out_edges = [] :=
    List.map_eq_nil_iff.mp (hmap.trans hb)
  have hval : n.initial_eval = white_score G b := (hterm hb).1
  rw [playoutF_actionless_existing G c R fuel g b k n hb hn hedges, hval]

/-- Witness for C9: the anomaly behaviour on the graph `g9` holding a node
for the action-less toy board 0. -/
theorem c9_witness :
    (GraphInv toyG g9 ∧ toyG.actions 0 = [] ∧
      g9 0 = some (Node.init toyG 0 (white_score toyG 0))) ∧
    playoutF toyG 1 R0 1 g9 0 0 =
      some ((Node.init toyG 0 (white_score toyG 0)).initial_eval,
        g9, 0, [0]) := by
  have h9 : g9 0 = some (Node.init toyG 0 (white_score toyG 0)) := by
    rw [g9, Graph.insertN, if_pos rfl]
  exact ⟨⟨g9_inv, rfl, h9⟩,
    c9_playout_anomaly toyG 1 R0 0 g9 0 0 _ g9_inv rfl h9⟩

theorem bump_keep [DecidableEq A] {a : A} {v : ℝ} :
    ∀ (l : List (OutEdge A)), (∀ x ∈ l, x.action ≠ a) →
      l.map (bumpEdge a v) = l := by
  intro l h
  induction l with
  | nil => rfl
  | cons e t ih =>
    rw [List.map_cons, bumpEdge, if_neg (h e (by simp)),
      ih (fun x hx => h x (by simp [hx]))]

/-- C4: `update_eval` for a node whose selected action labels exactly one
edge increments the node count by 1, increments that edge's visit count by
1 and replaces its value by `v` (last sample, not a running mean), leaves
every other edge unchanged, leaves `initial_eval` and the board unchanged,
and stores (and, in `playout`, returns) the recomputed
`Q(s) = initial_eval / N(s) + sum over edges of (N(s,a) / N(s)) * Q(s,a)`
taken over the updated edges and the post-increment count. -/
theorem c4_update_eval [DecidableEq A] (n : Node B A) (a : A) (v : ℝ)
    (l1 l2 : List (OutEdge A)) (e : OutEdge A)
    (hsplit : n.out_edges = l1 ++ e :: l2)
    (hea : e.action = a)
    (hno : ∀ x ∈ l1 ++ l2, x.action ≠ a) :
    (update_eval n a v).count = n.count + 1 ∧
    (update_eval n a v).out_edges =
      l1 ++ { e with visits := e.visits + 1, eval := v } :: l2 ∧
    (update_eval n a v).initial_eval = n.initial_eval ∧
    (update_eval n a v).board = n.board ∧
    (update_eval n a v).eval =
      n.initial_eval / ((update_eval n a v).count : ℝ) +
        ((update_eval n a v).out_edges.map
          (fun x => ((x.visits : ℝ) / ((update_eval n a v).count : ℝ)) *
            x.eval)).sum := by
  refine ⟨rfl, ?_, rfl, rfl, rfl⟩
  show n.out_edges.map (bumpEdge a v) = _
  rw [hsplit, List.map_append, List.map_cons, bumpEdge, if_pos hea,
    bump_keep l1 (fun x hx => hno x (by simp [hx])),
    bump_keep l2 (fun x hx => hno x (by simp [hx]))]

/-- Witness for C4: the backpropagation step applied to the concrete node
`twoNode` for its second edge's action, with value 1/3. -/
theorem c4_update_eval_witness :
    (twoNode.out_edges =
        [(⟨1, 4, 3 / 4⟩ : OutEdge Nat)] ++
          (⟨2, 5, 1 / 4⟩ : OutEdge Nat) :: [] ∧
      (⟨2, 5, (1:ℝ) / 4⟩ : OutEdge Nat).action = 2 ∧
      (∀ x ∈ [(⟨1, 4, (3:ℝ) / 4⟩ : OutEdge Nat)] ++
          ([] : List (OutEdge Nat)), x.action ≠ 2)) ∧
    (update_eval twoNode 2 (1 / 3)).count = twoNode.count + 1 ∧
    (update_eval twoNode 2 (1 / 3)).out_edges =
      [(⟨1, 4, 3 / 4⟩ : OutEdge Nat)] ++
        ({ (⟨2, 5, (1:ℝ) / 4⟩ : OutEdge Nat) with
            visits := (⟨2, 5, (1:ℝ) / 4⟩ : OutEdge Nat).visits + 1,
            eval := (1 : ℝ) / 3 }) :: [] := by
  have h1 : twoNode.out_edges =
      [(⟨1, 4, 3 / 4⟩ : OutEdge Nat)] ++
        (⟨2, 5, 1 / 4⟩ : OutEdge Nat) :: [] := by
    simp [twoNode]
  have h2 : (⟨2, 5, (1:ℝ) / 4⟩ : OutEdge Nat).action = 2 := rfl
  have h3 : ∀ x ∈ [(⟨1, 4, (3:ℝ) / 4⟩ : OutEdge Nat)] ++
      ([] : List (OutEdge Nat)), x.action ≠ 2 := by
    intro x hx
    simp only [List.append_nil, List.mem_cons, List.not_mem_nil,
      or_false] at hx
    rw [hx]
    norm_num
  have h := c4_update_eval twoNode 2 (1 / 3) _ _ _ h1 h2 h3
  exact ⟨⟨h1, h2, h3⟩, h.1, h.2.1⟩

/-- C5: the loop guard of `select` reads the binding declared before the
loop (the re-computation inside the body shadows it and is dead).  So when
the deadline has not yet passed at entry the loop never exits — no amount
of fuel makes it stop — and when the deadline has already passed at entry
the loop exits immediately with zero playouts, not the guaranteed minimum
of one. -/
theorem c5_select_guard_stale :
    (∀ fuel, selectIterations true fuel = none) ∧
    (∀ fuel, selectIterations false fuel = some 0) := by
  constructor
  · intro fuel
    induction fuel with
    | zero => rfl
    | succ f ih => simp [selectIterations, selectLoopGuard, ih]
  · intro fuel
    cases fuel <;> rfl

theorem bump_action [DecidableEq A] (a : A) (v : ℝ) (e : OutEdge A) :
    (bumpEdge a v e).action = e.action := by
  rw [bumpEdge]
  split <;> rfl

theorem map_action_bump [DecidableEq A] (a : A) (v : ℝ)
    (l : List (OutEdge A)) :
    (l.map (bumpEdge a v)).map OutEdge.action = l.map OutEdge.action := by
  rw [List.map_map]
  exact List.map_congr_left (fun e _ => bump_action a v e)

theorem sumVisits_cons (e : OutEdge A) (t : List (OutEdge A)) :
    sumVisits (e :: t) = e.visits + sumVisits t := by
  simp [sumVisits]

theorem sumVisits_bump_le [DecidableEq A] (a : A) (v : ℝ) :
    ∀ (l : List (OutEdge A)), (l.map OutEdge.action).Nodup →
      sumVisits (l.map (bumpEdge a v)) ≤ sumVisits l + 1 := by
  intro l
  induction l with
  | nil => intro _; simp [sumVisits]
  | cons e t ih =>
    intro hnd
    rw [List.map_cons] at hnd
    have hnotin : e.action ∉ t.map OutEdge.action :=
      (List.nodup_cons.1 hnd).1
    have hndt : (t.map OutEdge.action).Nodup := (List.nodup_cons.1 hnd).2
    rw [List.map_cons, sumVisits_cons, sumVisits_cons]
    by_cases hea : e.action = a
    · have ht : t.map (bumpEdge a v) = t := by
        apply bump_keep
        intro x hx hxa
        exact hnotin (hea ▸ hxa ▸ List.mem_map_of_mem OutEdge.action hx)
      rw [ht, bumpEdge, if_pos hea]
      show e.visits + 1 + sumVisits t ≤ e.visits + sumVisits t + 1
      omega
    · rw [bumpEdge, if_neg hea]
      have := ih hndt
      omega

theorem sumVisits_new (l : List A) : sumVisits (l.map OutEdge.new) = 0 := by
  induction l with
  | nil => rfl
  | cons a t ih => rw [List.map_cons, sumVisits_cons, ih, OutEdge.new]

theorem map_action_new (l : List A) :
    (l.map OutEdge.new).map OutEdge.action = l := by
  rw [List.map_map]
  have : (OutEdge.action ∘ OutEdge.new : A → A) = id := by
    funext a
    rfl
  rw [this, List.map_id]

theorem selectLoop_some_mem (c T : ℝ) (n : Nat) :
    ∀ (l : List (OutEdge A)) (m : F) (acc : Option A) (a : A),
      selectLoop c T n l m acc = some a →
      acc = some a ∨ a ∈ l.map OutEdge.action := by
  intro l
  induction l with
  | nil => intro m acc a h; exact Or.inl h
  | cons e t ih =>
    intro m acc a h
    rw [selectLoop] at h
    split at h
    · rcases ih _ _ _ h with h1 | h2
      · cases h1
        exact Or.inr (by simp)
      · exact Or.inr (by simp [h2])
    · rcases ih _ _ _ h with h1 | h2
      · exact Or.inl h1
      · exact Or.inr (by simp [h2])

theorem select_ucb1_some_mem (c : ℝ) (turn : Color) (node : Node B A)
    (a : A) (h : select_ucb1 c turn node = some a) :
    a ∈ node.out_edges.map OutEdge.action := by
  rw [select_ucb1_eq] at h
  rcases selectLoop_some_mem c (signT turn) node.count node.out_edges
      (F.fin 0) none a h with h1 | h2
  · cases h1
  · exact h2

theorem insertN_self [DecidableEq B] (g : Graph B A) (b : B) (n : Node B A) :
    (g.insertN b n) b = some n := by
  simp [Graph.insertN]

theorem insertN_other [DecidableEq B] (g : Graph B A) (b : B) (n : Node B A)
    (b0 : B) (h : b0 ≠ b) : (g.insertN b n) b0 = g b0 := by
  simp [Graph.insertN, h]

theorem insertN_preserves [DecidableEq B] (g : Graph B A) (b : B)
    (n : Node B A) (b0 : B) (n0 : Node B A) (h : g b0 = some n0) :
    ∃ n1, (g.insertN b n) b0 = some n1 := by
  by_cases hb : b0 = b
  · subst hb
    exact ⟨n, insertN_self g b0 n⟩
  · exact ⟨n0, (insertN_other g b n b0 hb).trans h⟩

theorem playoutF_mono (G : GameOps B A) [DecidableEq B] [DecidableEq A]
    (c : ℝ) (R : Nat → Nat) :
    ∀ (fuel : Nat) (g : Graph B A) (b : B) (k : Nat)
      (out : ℝ × Graph B A × Nat × List B),
      playoutF G c R fuel g b k = some out →
      ∀ b0 n0, g b0 = some n0 → ∃ n1, out.2.1 b0 = some n1 := by
  intro fuel
  induction fuel with
  | zero =>
    intro g b k out h
    rw [playoutF] at h
    exact absurd h (by simp)
  | succ f ih =>
    intro g b k out h b0 n0 h0
    rw [playoutF] at h
    split at h
    · cases h
      exact insertN_preserves g b _ b0 n0 h0
    · rename_i n hgb
      split at h
      · rename_i a hsel
        split at h
        · exact absurd h (by simp)
        · rename_i x1 v1 g2 k2 logs hrec
          split at h
          · exact absurd h (by simp)
          · rename_i n2 hg2
            cases h
            obtain ⟨n1, hn1⟩ :=
              ih g (G.apply b a) ((rollout G R b k).2) (v1, g2, k2, logs)
                hrec b0 n0 h0
            exact insertN_preserves g2 b _ b0 n1 hn1
      · cases h
        exact ⟨n0, h0⟩

theorem playoutF_preserves_inv (G : GameOps B A) [DecidableEq B]
    [DecidableEq A] (c : ℝ) (R : Nat → Nat) :
    ∀ (fuel : Nat) (g : Graph B A) (b : B) (k : Nat)
      (out : ℝ × Graph B A × Nat × List B),
      GraphInv G g → playoutF G c R fuel g b k = some out →
      GraphInv G out.2.1 := by
  intro fuel
  induction fuel with
  | zero =>
    intro g b k out _ h
    rw [playoutF] at h
    exact absurd h (by simp)
  | succ f ih =>
    intro g b k out hinv h
    rw [playoutF] at h
    split at h
    · cases h
      intro b0 n0 h0
      dsimp only at h0
      by_cases hb : b0 = b
      · subst hb
        rw [insertN_self] at h0
        cases h0
        refine ⟨rfl, map_action_new _, le_refl 1, ?_, ?_⟩
        · show sumVisits ((G.actions b0).map OutEdge.new) + 1 ≤ 1
          rw [sumVisits_new]
        · intro hnil
          refine ⟨?_, rfl⟩
          show (rollout G R b0 k).1 = white_score G b0
          rw [rollout_nil G R b0 k hnil]
      · rw [insertN_other _ _ _ _ hb] at h0
        exact hinv b0 n0 h0
    · rename_i n hgb
      split at h
      · rename_i a hsel
        split at h
        · exact absurd h (by simp)
        · rename_i x1 v1 g2 k2 logs hrec
          split at h
          · exact absurd h (by simp)
          · rename_i n2 hg2
            cases h
            have hinv2 : GraphInv G g2 :=
              ih g (G.apply b a) ((rollout G R b k).2) (v1, g2, k2, logs)
                hinv hrec
            intro b0 n0 h0
            dsimp only at h0
            by_cases hb : b0 = b
            · subst hb
              rw [insertN_self] at h0
              cases h0
              obtain ⟨hbd2, hmap2, hc2, hs2, -⟩ := hinv2 b0 n2 hg2
              obtain ⟨-, hmap, -, -, -⟩ := hinv b0 n hgb
              have hanodup : (n2.out_edges.map OutEdge.action).Nodup := by
                rw [hmap2]
                exact G.actions_nodup b0
              have hne : G.actions b0 ≠ [] := by
                intro hnil
                have hnil2 : n.out_edges = [] :=
                  List.map_eq_nil_iff.mp (hmap.trans hnil)
                rw [select_ucb1_nil c (G.turn b0) n hnil2] at hsel
                cases hsel
              refine ⟨hbd2, ?_, ?_, ?_, ?_⟩
              · show (n2.out_edges.map (bumpEdge a v1)).map OutEdge.action =
                  G.actions b0
                rw [map_action_bump]
                exact hmap2
              · show 1 ≤ n2.count + 1
                omega
              · show sumVisits (n2.out_edges.map (bumpEdge a v1)) + 1 ≤
                  n2.count + 1
                have := sumVisits_bump_le a v1 n2.out_edges hanodup
                omega
              · intro hnil
                exact absurd hnil hne
            · rw [insertN_other _ _ _ _ hb] at h0
              exact hinv2 b0 n0 h0
      · cases h
        exact hinv

/-- C8: the search-graph invariants hold for the empty graph (fresh engine
or after `clear()`) and are preserved by every playout, hence hold after
any sequence of playouts: each node is keyed by its own board and has
exactly one out-edge per legal action of that board, fixed at creation
(the edges' action list always equals the board's action list, which the
game contract keeps duplicate-free); its visit count is at least 1; and
the sum of its edges' visit counts is at most the node count minus 1. -/
theorem c8_graph_invariants (G : GameOps B A) [DecidableEq B] [DecidableEq A]
    (c : ℝ) (R : Nat → Nat) :
    GraphInv G (emptyGraph : Graph B A) ∧
    ∀ (fuel : Nat) (g : Graph B A) (b : B) (k : Nat)
      (out : ℝ × Graph B A × Nat × List B),
      GraphInv G g → playoutF G c R fuel g b k = some out →
      GraphInv G out.2.1 := by
  constructor
  · intro b n h
    simp [emptyGraph] at h
  · exact playoutF_preserves_inv G c R

/-- Witness for C8: the invariants instantiated on the toy game, with the
playout from the empty graph on board 0 evaluated. -/
theorem c8_graph_invariants_witness :
    (GraphInv toyG (emptyGraph : Graph Nat Nat) ∧
      playoutF toyG 1 R0 1 emptyGraph 0 0 =
        some (white_score toyG 0, g9, 0, [])) ∧
    GraphInv toyG g9 := by
  have hp : playoutF toyG 1 R0 1 emptyGraph 0 0 =
      some (white_score toyG 0, g9, 0, []) :=
    playoutF_terminal_new toyG 1 R0 0 emptyGraph 0 0 rfl rfl
  have h0 : GraphInv toyG (emptyGraph : Graph Nat Nat) :=
    (c8_graph_invariants toyG 1 R0).1
  exact ⟨⟨h0, hp⟩,
    (c8_graph_invariants toyG 1 R0).2 1 emptyGraph 0 0
      (white_score toyG 0, g9, 0, []) h0 hp⟩

end Mcts
